import Mathlib

/-!
Verification of the `groupie` group-membership store (`groupie/core.py`).

The store is a mapping from group name to an ordered list of member paths,
persisted as a single JSON document.  We embed it as an ordered association
list (Python dicts preserve insertion order).  The disk is modelled by an
`Option FileContent` (absent file / parseable document / unparseable
document) and a counter of save operations, so that claims about *whether*
a write happens are expressible.  Filesystem existence and path
canonicalization are abstracted as function parameters `ex` and `resolve`.
-/

namespace Groupie

/-- A store mapping: group name to ordered list of member paths
(the JSON object persisted on disk). -/
abbrev GroupMap := List (String × List String)

/-- Content of the storage file: either a parseable JSON object (with the
mapping it denotes) or an unparseable document. -/
inductive FileContent where
  | valid (m : GroupMap)
  | corrupt
deriving DecidableEq

/-- State of a `FileGroupManager` together with its backing file:
the in-memory `groups` dict, the disk content (`none` = file absent),
and how many times `_save_groups` has run. -/
structure SysState where
  groups : GroupMap
  file : Option FileContent
  saves : Nat
deriving DecidableEq

/-- The distinguishable error kinds the core raises: `groupNotFound` embeds
the `KeyError` raised for an absent group (the spec's `GroupNotFoundError`),
`storageCorrupt` the JSON parse error (the spec's `StorageCorruptError`). -/
inductive CoreError where
  | groupNotFound
  | storageCorrupt
deriving DecidableEq

/-- `group_name in self.groups` / `self.groups[group_name]`: first (unique)
value stored under a key. -/
def lookupGroup : GroupMap → String → Option (List String)
  | [], _ => none
  | e :: rest, g => if e.1 = g then some e.2 else lookupGroup rest g

/-- Membership test on the dict's keys. -/
def hasGroup (gs : GroupMap) (g : String) : Bool :=
  (lookupGroup gs g).isSome

/-- Python `list.remove`: delete the first occurrence of a value. -/
def eraseFirst : List String → String → List String
  | [], _ => []
  | x :: rest, a => if x = a then rest else x :: eraseFirst rest a

/-- Number of occurrences of a path in one member list. -/
def countOcc : List String → String → Nat
  | [], _ => 0
  | x :: rest, p => (if x = p then 1 else 0) + countOcc rest p

/-- Total number of occurrences of a path across the whole store. -/
def pathOccs (gs : GroupMap) (p : String) : Nat :=
  (gs.map (fun e => countOcc e.2 p)).sum

/-- Invariant (1) of the data model: each resolved path is a member of at
most one group, and at most once within its group. -/
def GlobalUnique (gs : GroupMap) : Prop :=
  ∀ p, pathOccs gs p ≤ 1

/-- Invariant (2): group names are unique (Python dicts enforce this). -/
def KeysNodup (gs : GroupMap) : Prop :=
  (gs.map Prod.fst).Nodup

/-- `_save_groups`: rewrite the whole document from the in-memory mapping. -/
def save_groups (s : SysState) : SysState :=
  { groups := s.groups, file := some (FileContent.valid s.groups), saves := s.saves + 1 }

/-- Inner loop of `_fix_duplicate_files` over one group's member list:
`orig` is the `.copy()` being iterated, `work` the live list being mutated,
`seen` the keys of `file_to_group`.  Returns the final list, the final seen
set, and whether any removal was made. -/
def fixList : List String → List String → List String → List String × List String × Bool
  | [], work, seen => (work, seen, false)
  | p :: rest, work, seen =>
    if p ∈ seen then
      let r := fixList rest (eraseFirst work p) seen
      (r.1, r.2.1, true)
    else
      fixList rest work (p :: seen)

/-- Outer loop of `_fix_duplicate_files` over all groups in mapping order. -/
def fixGroups : GroupMap → List String → GroupMap × List String × Bool
  | [], seen => ([], seen, false)
  | (g, fs) :: rest, seen =>
    let r₁ := fixList fs fs seen
    let r₂ := fixGroups rest r₁.2.1
    ((g, r₁.1) :: r₂.1, r₂.2.1, r₁.2.2 || r₂.2.2)

/-- `_fix_duplicate_files`: run the repair pass, then save iff changes
were made. -/
def fix_duplicate_files (s : SysState) : SysState :=
  let r := fixGroups s.groups []
  let s' : SysState := { s with groups := r.1 }
  if r.2.2 then save_groups s' else s'

/-- `FileGroupManager.__init__` + `_load_groups`: start empty if the file is
absent; fail with the corrupt-storage error if it does not parse; otherwise
adopt the parsed mapping and run the repair pass. -/
def mkManager (disk : Option FileContent) : Except CoreError SysState :=
  match disk with
  | none => Except.ok { groups := [], file := none, saves := 0 }
  | some FileContent.corrupt => Except.error CoreError.storageCorrupt
  | some (FileContent.valid m) =>
      Except.ok (fix_duplicate_files { groups := m, file := some (FileContent.valid m), saves := 0 })

/-- `create_group`. -/
def create_group (s : SysState) (name : String) : SysState × Bool :=
  if hasGroup s.groups name then (s, false)
  else (save_groups { s with groups := s.groups ++ [(name, [])] }, true)

/-- First phase of the per-path body of `add_files_to_group`: remove the
path from every group other than the target. -/
def removeFromOthers (gs : GroupMap) (g p : String) : GroupMap :=
  gs.map (fun e => if e.1 = g then e else (e.1, eraseFirst e.2 p))

/-- `self.groups[group_name].append(path)`. -/
def appendToGroup (gs : GroupMap) (g p : String) : GroupMap :=
  gs.map (fun e => if e.1 = g then (e.1, e.2 ++ [p]) else e)

/-- Body of the per-path loop of `add_files_to_group`; the Bool tells
whether the path was newly appended (vs already in the target group). -/
def addOne (gs : GroupMap) (g p : String) : GroupMap × Bool :=
  let gs₁ := removeFromOthers gs g p
  if p ∈ (lookupGroup gs₁ g).getD [] then (gs₁, false)
  else (appendToGroup gs₁ g p, true)

/-- The whole per-path loop, accumulating `(added, already_in_group)`. -/
def addLoop : GroupMap → String → List String → GroupMap × Nat × Nat
  | gs, _, [] => (gs, 0, 0)
  | gs, g, p :: rest =>
    let r := addOne gs g p
    let r₂ := addLoop r.1 g rest
    if r.2 then (r₂.1, r₂.2.1 + 1, r₂.2.2) else (r₂.1, r₂.2.1, r₂.2.2 + 1)

/-- `add_files_to_group`: existence check first, then resolve all paths,
run the loop, save unconditionally, return the counts. -/
def add_files_to_group (resolve : String → String) (s : SysState) (g : String)
    (paths : List String) : Except CoreError (SysState × Nat × Nat) :=
  if hasGroup s.groups g then
    let abs := paths.map resolve
    let r := addLoop s.groups g abs
    Except.ok (save_groups { s with groups := r.1 }, r.2.1, r.2.2)
  else Except.error CoreError.groupNotFound

/-- `list_groups`: status listing for every group, in-place cleaning of the
missing members when `clean` is set, and a save iff `clean` is set. -/
def list_groups (ex : String → Bool) (s : SysState) (clean : Bool) :
    SysState × List (String × List (String × Bool)) :=
  let result := s.groups.map (fun e => (e.1, e.2.map (fun p => (p, !(ex p)))))
  let gs := s.groups.map (fun e =>
    let nf := e.2.filter (fun p => ex p || !clean)
    if clean ∧ nf.length ≠ e.2.length then (e.1, nf) else e)
  if clean then (save_groups { s with groups := gs }, result) else (s, result)

/-- `clean_groups`: drop the missing members of every group, collect them
per group (omitting groups with none), save iff anything was removed. -/
def clean_groups (ex : String → Bool) (s : SysState) : SysState × List (String × List String) :=
  let removed := s.groups.filterMap (fun e =>
    let rs := e.2.filter (fun p => !(ex p))
    if rs = [] then none else some (e.1, rs))
  let gs := s.groups.map (fun e =>
    if e.2.filter (fun p => !(ex p)) = [] then e
    else (e.1, e.2.filter (fun p => ex p)))
  if removed = [] then (s, removed)
  else (save_groups { s with groups := gs }, removed)

/-- `del self.groups[group_name]`. -/
def removeKey : GroupMap → String → GroupMap
  | [], _ => []
  | e :: rest, g => if e.1 = g then removeKey rest g else e :: removeKey rest g

/-- `remove_group`. -/
def remove_group (s : SysState) (g : String) : SysState × Bool :=
  if hasGroup s.groups g then
    (save_groups { s with groups := removeKey s.groups g }, true)
  else (s, false)

/-- `remove_file_from_group`: existence check, resolve, membership check,
then remove-and-save. -/
def remove_file_from_group (resolve : String → String) (s : SysState) (g : String)
    (path : String) : Except CoreError (SysState × Bool) :=
  if hasGroup s.groups g then
    let a := resolve path
    if a ∈ (lookupGroup s.groups g).getD [] then
      let gs := s.groups.map (fun e => if e.1 = g then (e.1, eraseFirst e.2 a) else e)
      Except.ok (save_groups { s with groups := gs }, true)
    else Except.ok (s, false)
  else Except.error CoreError.groupNotFound

/-- Run a sequence of `add_files_to_group` calls; a failed call (absent
group raises) leaves the state as it was. -/
def runAdds (resolve : String → String) : SysState → List (String × List String) → SysState
  | s, [] => s
  | s, c :: rest =>
    match add_files_to_group resolve s c.1 c.2 with
    | Except.ok r => runAdds resolve r.1 rest
    | Except.error _ => runAdds resolve s rest

/-- Modelled from the spec: the repair pass as §4.1 words it — scan groups
in mapping order, keep each path's first occurrence, "remove it from every
group after the first group that claimed it" (so later occurrences are the
ones dropped, the first survives in place).  Used only to compare with the
source's `_fix_duplicate_files`. -/
def specFixList : List String → List String → List String × List String
  | [], seen => ([], seen)
  | p :: rest, seen =>
    if p ∈ seen then specFixList rest seen
    else
      let r := specFixList rest (p :: seen)
      (p :: r.1, r.2)

/-- Modelled from the spec: the whole spec-worded repair pass. -/
def specFixGroups : GroupMap → List String → GroupMap
  | [], _ => []
  | (g, fs) :: rest, seen =>
    let r := specFixList fs seen
    (g, r.1) :: specFixGroups rest r.2

/-- "Keep the last occurrence of every admissible value": the functional
characterization of what the inner repair loop leaves behind. -/
def keepLast (ok : String → Bool) : List String → List String
  | [] => []
  | p :: rest => if ok p ∧ p ∉ rest then p :: keepLast ok rest else keepLast ok rest

/-- The `file_to_group` key set after scanning one member list (the `work`
argument of `fixList` does not influence it). -/
def seenAfter : List String → List String → List String
  | [], seen => seen
  | p :: rest, seen => if p ∈ seen then seenAfter rest seen else seenAfter rest (p :: seen)

/-- Whether scanning one member list makes at least one removal (again
independent of `work`). -/
def dupFlag : List String → List String → Bool
  | [], _ => false
  | p :: rest, seen => if p ∈ seen then true else dupFlag rest (p :: seen)

/-- The path `p` is a member of group `g` and of no other group. -/
def OnlyIn (gs : GroupMap) (g p : String) : Prop :=
  p ∈ (lookupGroup gs g).getD [] ∧ ∀ e ∈ gs, e.1 ≠ g → p ∉ e.2

/-! ### Basic lemmas: occurrence counting and first-occurrence removal -/

@[simp] theorem countOcc_nil (p : String) : countOcc [] p = 0 := rfl

theorem countOcc_cons (x p : String) (l : List String) :
    countOcc (x :: l) p = (if x = p then 1 else 0) + countOcc l p := rfl

theorem countOcc_append (l₁ l₂ : List String) (p : String) :
    countOcc (l₁ ++ l₂) p = countOcc l₁ p + countOcc l₂ p := by
  induction l₁ with
  | nil => simp
  | cons x l ih => simp [countOcc_cons, ih, Nat.add_assoc]

theorem countOcc_eq_zero {l : List String} {p : String} :
    countOcc l p = 0 ↔ p ∉ l := by
  induction l with
  | nil => simp
  | cons x l ih =>
    rw [countOcc_cons]
    by_cases hx : x = p
    · simp [hx]
    · simp [hx, ih, Ne.symm hx]

theorem countOcc_pos {l : List String} {p : String} :
    0 < countOcc l p ↔ p ∈ l := by
  rw [Nat.pos_iff_ne_zero, Ne, countOcc_eq_zero]
  exact not_not

@[simp] theorem eraseFirst_nil (p : String) : eraseFirst [] p = [] := rfl

theorem eraseFirst_of_not_mem {l : List String} {p : String} (h : p ∉ l) :
    eraseFirst l p = l := by
  induction l with
  | nil => rfl
  | cons x l ih =>
    simp only [List.mem_cons, not_or] at h
    simp [eraseFirst, Ne.symm h.1, ih h.2]

theorem countOcc_eraseFirst_self (l : List String) (p : String) :
    countOcc (eraseFirst l p) p = countOcc l p - 1 := by
  induction l with
  | nil => rfl
  | cons x l ih =>
    by_cases hx : x = p
    · simp [eraseFirst, hx, countOcc_cons]
    · simp [eraseFirst, hx, countOcc_cons, ih]

theorem countOcc_eraseFirst_of_ne {q p : String} (h : q ≠ p) (l : List String) :
    countOcc (eraseFirst l p) q = countOcc l q := by
  induction l with
  | nil => rfl
  | cons x l ih =>
    by_cases hx : x = p
    · subst hx
      simp [eraseFirst, countOcc_cons, Ne.symm h]
    · simp [eraseFirst, hx, countOcc_cons, ih]

theorem countOcc_eraseFirst_le (l : List String) (p q : String) :
    countOcc (eraseFirst l p) q ≤ countOcc l q := by
  by_cases h : q = p
  · subst h
    rw [countOcc_eraseFirst_self]
    exact Nat.sub_le _ _
  · rw [countOcc_eraseFirst_of_ne h]

theorem mem_of_mem_eraseFirst {l : List String} {p q : String}
    (h : q ∈ eraseFirst l p) : q ∈ l := by
  induction l with
  | nil => simp at h
  | cons x l ih =>
    by_cases hx : x = p
    · simp only [eraseFirst, if_pos hx] at h
      exact List.mem_cons_of_mem _ h
    · simp only [eraseFirst, if_neg hx, List.mem_cons] at h
      rcases h with h | h
      · exact h ▸ List.mem_cons_self _ _
      · exact List.mem_cons_of_mem _ (ih h)

theorem mem_eraseFirst_of_ne {l : List String} {p q : String}
    (hne : q ≠ p) (h : q ∈ l) : q ∈ eraseFirst l p := by
  rw [← countOcc_pos] at h ⊢
  rwa [countOcc_eraseFirst_of_ne hne]

theorem not_mem_eraseFirst_self {l : List String} {p : String}
    (h : countOcc l p ≤ 1) : p ∉ eraseFirst l p := by
  rw [← countOcc_eq_zero, countOcc_eraseFirst_self]
  omega

theorem eraseFirst_append_of_mem {l₁ : List String} {p : String} (h : p ∈ l₁)
    (l₂ : List String) : eraseFirst (l₁ ++ l₂) p = eraseFirst l₁ p ++ l₂ := by
  induction l₁ with
  | nil => simp at h
  | cons x l ih =>
    by_cases hx : x = p
    · simp [eraseFirst, hx]
    · rcases List.mem_cons.1 h with h' | h'
      · exact absurd h'.symm hx
      · simp [eraseFirst, hx, ih h']

theorem eraseFirst_append_of_not_mem {l₁ : List String} {p : String} (h : p ∉ l₁)
    (l₂ : List String) : eraseFirst (l₁ ++ l₂) p = l₁ ++ eraseFirst l₂ p := by
  induction l₁ with
  | nil => rfl
  | cons x l ih =>
    simp only [List.mem_cons, not_or] at h
    simp [eraseFirst, Ne.symm h.1, ih h.2]

theorem nodup_of_countOcc_le_one {l : List String}
    (h : ∀ p, countOcc l p ≤ 1) : l.Nodup := by
  induction l with
  | nil => exact List.nodup_nil
  | cons x l ih =>
    refine List.nodup_cons.2 ⟨?_, ih fun p => ?_⟩
    · have := h x
      rw [countOcc_cons, if_pos rfl] at this
      rw [← countOcc_eq_zero]
      omega
    · have := h p
      rw [countOcc_cons] at this
      omega

theorem countOcc_le_one_of_nodup {l : List String} (h : l.Nodup) (p : String) :
    countOcc l p ≤ 1 := by
  induction l with
  | nil => simp
  | cons x l ih =>
    rcases List.nodup_cons.1 h with ⟨hx, hl⟩
    rw [countOcc_cons]
    by_cases hxp : x = p
    · subst hxp
      have h0 : countOcc l x = 0 := countOcc_eq_zero.2 hx
      rw [if_pos rfl, h0]
    · have := ih hl
      simp [hxp]
      omega

theorem nodup_eraseFirst {l : List String} (h : l.Nodup) (p : String) :
    (eraseFirst l p).Nodup := by
  refine nodup_of_countOcc_le_one fun q => ?_
  exact le_trans (countOcc_eraseFirst_le l p q) (countOcc_le_one_of_nodup h q)

/-! ### Lemmas about `pathOccs` (total occurrences across the store) -/

@[simp] theorem pathOccs_nil (p : String) : pathOccs [] p = 0 := rfl

theorem pathOccs_cons (e : String × List String) (gs : GroupMap) (p : String) :
    pathOccs (e :: gs) p = countOcc e.2 p + pathOccs gs p := by
  simp [pathOccs]

theorem pathOccs_cons_pair (g : String) (l : List String) (gs : GroupMap) (p : String) :
    pathOccs ((g, l) :: gs) p = countOcc l p + pathOccs gs p :=
  pathOccs_cons (g, l) gs p

theorem countOcc_le_pathOccs {gs : GroupMap} {e : String × List String}
    (h : e ∈ gs) (p : String) : countOcc e.2 p ≤ pathOccs gs p := by
  induction gs with
  | nil => simp at h
  | cons f gs ih =>
    rw [pathOccs_cons]
    rcases List.mem_cons.1 h with h' | h'
    · subst h'; omega
    · have := ih h'
      omega

theorem pathOccs_map_le {gs : GroupMap} {f : String × List String → String × List String}
    {p : String} (h : ∀ e ∈ gs, countOcc (f e).2 p ≤ countOcc e.2 p) :
    pathOccs (gs.map f) p ≤ pathOccs gs p := by
  induction gs with
  | nil => simp
  | cons e gs ih =>
    rw [List.map_cons, pathOccs_cons, pathOccs_cons]
    have h1 := h e (List.mem_cons_self _ _)
    have h2 := ih fun e' he' => h e' (List.mem_cons_of_mem _ he')
    omega

theorem pathOccs_append (gs₁ gs₂ : GroupMap) (p : String) :
    pathOccs (gs₁ ++ gs₂) p = pathOccs gs₁ p + pathOccs gs₂ p := by
  simp [pathOccs]

/-! ### Lemmas about `keepLast` -/

theorem mem_keepLast {ok : String → Bool} {l : List String} {q : String} :
    q ∈ keepLast ok l ↔ ok q = true ∧ q ∈ l := by
  induction l with
  | nil => simp [keepLast]
  | cons p rest ih =>
    by_cases hc : ok p = true ∧ p ∉ rest
    · rw [keepLast, if_pos hc]
      constructor
      · intro h
        rcases List.mem_cons.1 h with h | h
        · exact ⟨h ▸ hc.1, h ▸ List.mem_cons_self _ _⟩
        · rcases ih.1 h with ⟨h1, h2⟩
          exact ⟨h1, List.mem_cons_of_mem _ h2⟩
      · rintro ⟨h1, h2⟩
        rcases List.mem_cons.1 h2 with h | h
        · exact h ▸ List.mem_cons_self _ _
        · exact List.mem_cons_of_mem _ (ih.2 ⟨h1, h⟩)
    · rw [keepLast, if_neg hc, ih]
      constructor
      · rintro ⟨h1, h2⟩
        exact ⟨h1, List.mem_cons_of_mem _ h2⟩
      · rintro ⟨h1, h2⟩
        rcases List.mem_cons.1 h2 with h | h
        · subst h
          refine ⟨h1, ?_⟩
          by_contra hq
          exact hc ⟨h1, hq⟩
        · exact ⟨h1, h⟩

theorem countOcc_keepLast_le_one (ok : String → Bool) (l : List String) (q : String) :
    countOcc (keepLast ok l) q ≤ 1 := by
  induction l with
  | nil => simp [keepLast]
  | cons p rest ih =>
    by_cases hc : ok p = true ∧ p ∉ rest
    · rw [keepLast, if_pos hc, countOcc_cons]
      by_cases hq : p = q
      · subst hq
        have hmem : p ∉ keepLast ok rest := fun h => hc.2 (mem_keepLast.1 h).2
        rw [if_pos rfl, countOcc_eq_zero.2 hmem]
      · rw [if_neg hq, Nat.zero_add]
        exact ih
    · rw [keepLast, if_neg hc]
      exact ih

theorem keepLast_eq_self {ok : String → Bool} {l : List String} (hn : l.Nodup)
    (hok : ∀ x ∈ l, ok x = true) : keepLast ok l = l := by
  induction l with
  | nil => rfl
  | cons p rest ih =>
    rcases List.nodup_cons.1 hn with ⟨hp, hrest⟩
    rw [keepLast, if_pos ⟨hok p (List.mem_cons_self _ _), hp⟩,
      ih hrest fun x hx => hok x (List.mem_cons_of_mem _ hx)]

theorem keepLast_append_not_ok {ok : String → Bool} {p : String} (hp : ok p = false)
    (l₁ l₂ : List String) : keepLast ok (l₁ ++ p :: l₂) = keepLast ok (l₁ ++ l₂) := by
  induction l₁ with
  | nil =>
    rw [List.nil_append, List.nil_append, keepLast, if_neg]
    rintro ⟨h1, _⟩
    rw [hp] at h1
    exact Bool.noConfusion h1
  | cons x l ih =>
    rw [List.cons_append, List.cons_append, keepLast, keepLast, ih]
    refine if_congr ?_ rfl rfl
    constructor
    · rintro ⟨h1, h2⟩
      refine ⟨h1, fun hm => h2 ?_⟩
      simp only [List.mem_append, List.mem_cons] at hm ⊢
      tauto
    · rintro ⟨h1, h2⟩
      refine ⟨h1, fun hm => ?_⟩
      simp only [List.mem_append, List.mem_cons] at hm
      rcases hm with h | h | h
      · exact h2 (by simp [h])
      · subst h
        rw [hp] at h1
        exact Bool.noConfusion h1
      · exact h2 (by simp [h])

theorem keepLast_append_erase {ok : String → Bool} {u : List String} {p : String}
    (hp : p ∈ u) (rest : List String) :
    keepLast ok (eraseFirst u p ++ p :: rest) = keepLast ok (u ++ p :: rest) := by
  induction u with
  | nil => simp at hp
  | cons x u ih =>
    by_cases hx : x = p
    · subst hx
      rw [eraseFirst, if_pos rfl, List.cons_append, keepLast, if_neg]
      rintro ⟨_, h2⟩
      exact h2 (by simp)
    · have hp' : p ∈ u := by
        rcases List.mem_cons.1 hp with h | h
        · exact absurd h.symm hx
        · exact h
      rw [eraseFirst, if_neg hx, List.cons_append, List.cons_append, keepLast, keepLast, ih hp']
      have hmem : x ∈ eraseFirst u p ++ p :: rest ↔ x ∈ u ++ p :: rest := by
        simp only [List.mem_append]
        constructor
        · rintro (h | h)
          · exact Or.inl (mem_of_mem_eraseFirst h)
          · exact Or.inr h
        · rintro (h | h)
          · exact Or.inl (mem_eraseFirst_of_ne hx h)
          · exact Or.inr h
      exact if_congr (by rw [hmem]) rfl rfl

/-! ### Decomposing `fixList` into `keepLast`, `seenAfter`, `dupFlag` -/

theorem fixList_seen (orig : List String) : ∀ work seen,
    (fixList orig work seen).2.1 = seenAfter orig seen := by
  induction orig with
  | nil => intro work seen; rfl
  | cons p rest ih =>
    intro work seen
    by_cases hp : p ∈ seen
    · simp only [fixList, if_pos hp, seenAfter]
      exact ih _ _
    · simp only [fixList, if_neg hp, seenAfter]
      exact ih _ _

theorem fixList_flag (orig : List String) : ∀ work seen,
    (fixList orig work seen).2.2 = dupFlag orig seen := by
  induction orig with
  | nil => intro work seen; rfl
  | cons p rest ih =>
    intro work seen
    by_cases hp : p ∈ seen
    · simp only [fixList, if_pos hp, dupFlag]
    · simp only [fixList, if_neg hp, dupFlag]
      exact ih _ _

theorem seenAfter_mem (orig : List String) : ∀ seen q,
    q ∈ seenAfter orig seen ↔ q ∈ orig ∨ q ∈ seen := by
  induction orig with
  | nil => intro seen q; simp [seenAfter]
  | cons p rest ih =>
    intro seen q
    by_cases hp : p ∈ seen
    · rw [seenAfter, if_pos hp, ih]
      simp only [List.mem_cons]
      constructor
      · rintro (h | h)
        · exact Or.inl (Or.inr h)
        · exact Or.inr h
      · rintro ((h | h) | h)
        · exact Or.inr (h ▸ hp)
        · exact Or.inl h
        · exact Or.inr h
    · rw [seenAfter, if_neg hp, ih]
      simp only [List.mem_cons]
      tauto

theorem dupFlag_eq_false (orig : List String) : ∀ seen,
    dupFlag orig seen = false ↔ orig.Nodup ∧ ∀ q ∈ orig, q ∉ seen := by
  induction orig with
  | nil => intro seen; simp [dupFlag]
  | cons p rest ih =>
    intro seen
    by_cases hp : p ∈ seen
    · rw [dupFlag, if_pos hp]
      constructor
      · intro h
        exact Bool.noConfusion h
      · rintro ⟨_, h⟩
        exact absurd hp (h p (List.mem_cons_self _ _))
    · rw [dupFlag, if_neg hp, ih]
      constructor
      · rintro ⟨h1, h2⟩
        refine ⟨List.nodup_cons.2 ⟨fun hmem => ?_, h1⟩, ?_⟩
        · exact (h2 p hmem) (List.mem_cons_self _ _)
        · intro q hq
          rcases List.mem_cons.1 hq with rfl | hq'
          · exact hp
          · intro hqs
            exact (h2 q hq') (List.mem_cons_of_mem _ hqs)
      · rintro ⟨h1, h2⟩
        rcases List.nodup_cons.1 h1 with ⟨hpp, hrest⟩
        refine ⟨hrest, fun q hq hqin => ?_⟩
        rcases List.mem_cons.1 hqin with rfl | hq'
        · exact hpp hq
        · exact (h2 q (List.mem_cons_of_mem _ hq)) hq'

theorem dupFlag_eq_true (orig : List String) : ∀ seen, dupFlag orig seen = true →
    ∃ q, q ∈ orig ∧ (q ∈ seen ∨ 2 ≤ countOcc orig q) := by
  induction orig with
  | nil =>
    intro seen h
    exact Bool.noConfusion h
  | cons p rest ih =>
    intro seen h
    by_cases hp : p ∈ seen
    · exact ⟨p, List.mem_cons_self _ _, Or.inl hp⟩
    · rw [dupFlag, if_neg hp] at h
      rcases ih _ h with ⟨q, hq, hq2 | hq2⟩
      · rcases List.mem_cons.1 hq2 with rfl | hq3
        · refine ⟨q, List.mem_cons_self _ _, Or.inr ?_⟩
          have hpos : 0 < countOcc rest q := countOcc_pos.2 hq
          rw [countOcc_cons, if_pos rfl]
          omega
        · exact ⟨q, List.mem_cons_of_mem _ hq, Or.inl hq3⟩
      · refine ⟨q, List.mem_cons_of_mem _ hq, Or.inr ?_⟩
        rw [countOcc_cons]
        omega

theorem fixList_work (orig : List String) : ∀ u seen,
    (∀ x ∈ u, x ∈ seen) → u.Nodup →
    (fixList orig (u ++ orig) seen).1 =
      keepLast (fun x => decide (x ∈ u ∨ x ∉ seen)) (u ++ orig) := by
  induction orig with
  | nil =>
    intro u seen hsub hnod
    rw [List.append_nil, fixList]
    exact (keepLast_eq_self hnod fun x hx => decide_eq_true (Or.inl hx)).symm
  | cons p rest ih =>
    intro u seen hsub hnod
    by_cases hp : p ∈ seen
    · simp only [fixList, if_pos hp]
      by_cases hu : p ∈ u
      · rw [eraseFirst_append_of_mem hu]
        have hcount : countOcc u p ≤ 1 := countOcc_le_one_of_nodup hnod p
        have hpe : p ∉ eraseFirst u p := not_mem_eraseFirst_self hcount
        have hlist : eraseFirst u p ++ p :: rest = (eraseFirst u p ++ [p]) ++ rest := by
          simp
        rw [hlist, ih (eraseFirst u p ++ [p]) seen ?hsub2 ?hnod2]
        case hsub2 =>
          intro x hx
          rcases List.mem_append.1 hx with h | h
          · exact hsub x (mem_of_mem_eraseFirst h)
          · rw [List.mem_singleton.1 h]
            exact hp
        case hnod2 =>
          refine List.Nodup.append (nodup_eraseFirst hnod p) (List.nodup_singleton p) ?_
          intro x hx hx'
          rw [List.mem_singleton.1 hx'] at hx
          exact hpe hx
        have hok : (fun x => decide (x ∈ eraseFirst u p ++ [p] ∨ x ∉ seen)) =
            (fun x => decide (x ∈ u ∨ x ∉ seen)) := by
          funext x
          rw [decide_eq_decide]
          constructor
          · rintro (h | h)
            · rcases List.mem_append.1 h with h' | h'
              · exact Or.inl (mem_of_mem_eraseFirst h')
              · exact Or.inl ((List.mem_singleton.1 h') ▸ hu)
            · exact Or.inr h
          · rintro (h | h)
            · by_cases hxp : x = p
              · exact Or.inl (List.mem_append.2 (Or.inr (by simp [hxp])))
              · exact Or.inl (List.mem_append.2 (Or.inl (mem_eraseFirst_of_ne hxp h)))
            · exact Or.inr h
        rw [hok, ← hlist, keepLast_append_erase hu]
      · rw [eraseFirst_append_of_not_mem hu, eraseFirst, if_pos rfl, ih u seen hsub hnod]
        have hokp : decide (p ∈ u ∨ p ∉ seen) = false := by
          simp [hu, hp]
        exact (keepLast_append_not_ok hokp u rest).symm
    · simp only [fixList, if_neg hp]
      have hlist : u ++ p :: rest = (u ++ [p]) ++ rest := by
        simp
      rw [hlist, ih (u ++ [p]) (p :: seen) ?hsub2 ?hnod2]
      case hsub2 =>
        intro x hx
        rcases List.mem_append.1 hx with h | h
        · exact List.mem_cons_of_mem _ (hsub x h)
        · rw [List.mem_singleton.1 h]
          exact List.mem_cons_self _ _
      case hnod2 =>
        refine List.Nodup.append hnod (List.nodup_singleton p) ?_
        intro x hx hx'
        rw [List.mem_singleton.1 hx'] at hx
        exact hp (hsub p hx)
      have hok : (fun x => decide (x ∈ u ++ [p] ∨ x ∉ p :: seen)) =
          (fun x => decide (x ∈ u ∨ x ∉ seen)) := by
        funext x
        rw [decide_eq_decide]
        by_cases hxp : x = p
        · subst hxp
          simp [hp]
        · simp only [List.mem_append, List.mem_singleton, List.mem_cons, hxp, or_false,
            false_or]
          tauto
      rw [hok]

theorem fixList_top (fs seen : List String) :
    (fixList fs fs seen).1 = keepLast (fun x => decide (x ∉ seen)) fs := by
  have h := fixList_work fs [] seen (by simp) List.nodup_nil
  rw [List.nil_append] at h
  rw [h]
  congr 1
  funext x
  rw [decide_eq_decide]
  simp

/-! ### The repair pass over the whole store -/

theorem fixGroups_cons (g : String) (fs : List String) (rest : GroupMap) (seen : List String) :
    fixGroups ((g, fs) :: rest) seen =
      ((g, keepLast (fun x => decide (x ∉ seen)) fs) :: (fixGroups rest (seenAfter fs seen)).1,
       (fixGroups rest (seenAfter fs seen)).2.1,
       dupFlag fs seen || (fixGroups rest (seenAfter fs seen)).2.2) := by
  simp only [fixGroups]
  rw [fixList_top, fixList_seen, fixList_flag]

theorem fixGroups_keys (gs : GroupMap) : ∀ seen,
    (fixGroups gs seen).1.map Prod.fst = gs.map Prod.fst := by
  induction gs with
  | nil => intro seen; rfl
  | cons e rest ih =>
    intro seen
    obtain ⟨g, fs⟩ := e
    rw [fixGroups_cons]
    simp only [List.map_cons]
    rw [ih]

theorem fixGroups_length (gs : GroupMap) (seen : List String) :
    (fixGroups gs seen).1.length = gs.length := by
  have h := congrArg List.length (fixGroups_keys gs seen)
  simpa using h

theorem fixGroups_unique (gs : GroupMap) : ∀ seen p,
    pathOccs (fixGroups gs seen).1 p ≤ 1 ∧
      (p ∈ seen → pathOccs (fixGroups gs seen).1 p = 0) := by
  induction gs with
  | nil =>
    intro seen p
    rw [show (fixGroups [] seen).1 = [] from rfl]
    simp
  | cons e rest ih =>
    intro seen p
    obtain ⟨g, fs⟩ := e
    rw [fixGroups_cons, pathOccs_cons_pair]
    have ihR := ih (seenAfter fs seen) p
    constructor
    · by_cases hfs : p ∈ fs
      · have h0 : pathOccs (fixGroups rest (seenAfter fs seen)).1 p = 0 :=
          ihR.2 ((seenAfter_mem fs seen p).2 (Or.inl hfs))
        have h1 := countOcc_keepLast_le_one (fun x => decide (x ∉ seen)) fs p
        omega
      · have h0 : countOcc (keepLast (fun x => decide (x ∉ seen)) fs) p = 0 :=
          countOcc_eq_zero.2 fun h => hfs (mem_keepLast.1 h).2
        have h1 := ihR.1
        omega
    · intro hp
      have h0 : countOcc (keepLast (fun x => decide (x ∉ seen)) fs) p = 0 := by
        refine countOcc_eq_zero.2 fun h => ?_
        have := (mem_keepLast.1 h).1
        rw [decide_eq_true_eq] at this
        exact this hp
      have h1 : pathOccs (fixGroups rest (seenAfter fs seen)).1 p = 0 :=
        ihR.2 ((seenAfter_mem fs seen p).2 (Or.inr hp))
      omega

theorem fixGroups_nochange (gs : GroupMap) : ∀ seen,
    (∀ p, pathOccs gs p ≤ 1) → (∀ p ∈ seen, pathOccs gs p = 0) →
    (fixGroups gs seen).1 = gs ∧ (fixGroups gs seen).2.2 = false := by
  induction gs with
  | nil => intro seen _ _; exact ⟨rfl, rfl⟩
  | cons e rest ih =>
    intro seen hU hseen
    obtain ⟨g, fs⟩ := e
    have hcount : ∀ q, countOcc fs q ≤ 1 := fun q =>
      le_trans (@countOcc_le_pathOccs ((g, fs) :: rest) (g, fs) (List.mem_cons_self _ _) q)
        (hU q)
    have hnod : fs.Nodup := nodup_of_countOcc_le_one hcount
    have hdisj : ∀ q ∈ fs, q ∉ seen := by
      intro q hq hqs
      have h1 := hseen q hqs
      have h2 : 0 < countOcc fs q := countOcc_pos.2 hq
      rw [pathOccs_cons_pair] at h1
      omega
    have hkeep : keepLast (fun x => decide (x ∉ seen)) fs = fs :=
      keepLast_eq_self hnod fun x hx => decide_eq_true (hdisj x hx)
    have hrest := ih (seenAfter fs seen) (fun p => by
        have := hU p
        rw [pathOccs_cons_pair] at this
        omega)
      (fun p hp => by
        rcases (seenAfter_mem fs seen p).1 hp with h | h
        · have h1 := hU p
          have h2 : 0 < countOcc fs p := countOcc_pos.2 h
          rw [pathOccs_cons_pair] at h1
          omega
        · have h1 := hseen p h
          rw [pathOccs_cons_pair] at h1
          omega)
    rw [fixGroups_cons, hkeep, hrest.1, hrest.2,
      (dupFlag_eq_false fs seen).2 ⟨hnod, hdisj⟩]
    exact ⟨rfl, rfl⟩

theorem fixGroups_flag_false (gs : GroupMap) : ∀ seen,
    (fixGroups gs seen).2.2 = false → (fixGroups gs seen).1 = gs := by
  induction gs with
  | nil => intro seen _; rfl
  | cons e rest ih =>
    intro seen hflag
    obtain ⟨g, fs⟩ := e
    rw [fixGroups_cons] at hflag ⊢
    simp only [Bool.or_eq_false_iff] at hflag
    rcases (dupFlag_eq_false fs seen).1 hflag.1 with ⟨hnod, hdisj⟩
    rw [keepLast_eq_self hnod fun x hx => decide_eq_true (hdisj x hx), ih _ hflag.2]

theorem fixGroups_flag_true (gs : GroupMap) : ∀ seen,
    (fixGroups gs seen).2.2 = true → (fixGroups gs seen).1 ≠ gs := by
  induction gs with
  | nil =>
    intro seen h
    exact Bool.noConfusion h
  | cons e rest ih =>
    intro seen hflag heq
    obtain ⟨g, fs⟩ := e
    rw [fixGroups_cons] at hflag heq
    rcases List.cons_eq_cons.1 heq with ⟨hhead, htail⟩
    rcases Bool.or_eq_true_iff.1 hflag with h | h
    · rcases dupFlag_eq_true fs seen h with ⟨q, hq, hcase⟩
      have hk : keepLast (fun x => decide (x ∉ seen)) fs = fs := by
        have := congrArg Prod.snd hhead
        simpa using this
      rcases hcase with hqs | hqc
      · have : q ∈ keepLast (fun x => decide (x ∉ seen)) fs := by
          rw [hk]
          exact hq
        have := (mem_keepLast.1 this).1
        rw [decide_eq_true_eq] at this
        exact this hqs
      · have h1 := countOcc_keepLast_le_one (fun x => decide (x ∉ seen)) fs q
        rw [hk] at h1
        omega
    · exact ih _ h htail

theorem fixGroups_flag_iff (gs : GroupMap) (seen : List String) :
    (fixGroups gs seen).2.2 = false ↔ (fixGroups gs seen).1 = gs := by
  constructor
  · exact fixGroups_flag_false gs seen
  · intro h
    by_contra hne
    have : (fixGroups gs seen).2.2 = true := by
      revert hne
      cases (fixGroups gs seen).2.2 <;> simp
    exact fixGroups_flag_true gs seen this h

theorem fixGroups_mem (gs : GroupMap) : ∀ seen p i, i < gs.length →
    (p ∈ ((fixGroups gs seen).1.getD i ("", [])).2 ↔
      p ∉ seen ∧ p ∈ (gs.getD i ("", [])).2 ∧
        ∀ j, j < i → p ∉ (gs.getD j ("", [])).2) := by
  induction gs with
  | nil =>
    intro seen p i hi
    simp at hi
  | cons e rest ih =>
    intro seen p i hi
    obtain ⟨g, fs⟩ := e
    rw [fixGroups_cons]
    match i with
    | 0 =>
      simp only [List.getD_cons_zero]
      rw [mem_keepLast, decide_eq_true_eq]
      constructor
      · rintro ⟨h1, h2⟩
        exact ⟨h1, h2, fun j hj => absurd hj (Nat.not_lt_zero j)⟩
      · rintro ⟨h1, h2, _⟩
        exact ⟨h1, h2⟩
    | i' + 1 =>
      simp only [List.getD_cons_succ]
      rw [ih (seenAfter fs seen) p i' (by simpa using hi)]
      constructor
      · rintro ⟨h1, h2, h3⟩
        rw [seenAfter_mem] at h1
        push_neg at h1
        refine ⟨h1.2, h2, fun j hj => ?_⟩
        match j with
        | 0 => simpa using h1.1
        | j' + 1 =>
          rw [List.getD_cons_succ]
          exact h3 j' (by omega)
      · rintro ⟨h1, h2, h3⟩
        refine ⟨?_, h2, fun j hj => ?_⟩
        · rw [seenAfter_mem]
          push_neg
          exact ⟨by simpa using h3 0 (Nat.succ_pos i'), h1⟩
        · have := h3 (j + 1) (by omega)
          rwa [List.getD_cons_succ] at this

/-! ### Keys, lookup, and `hasGroup` -/

theorem lookupGroup_isSome_iff {gs : GroupMap} {g : String} :
    (lookupGroup gs g).isSome = true ↔ g ∈ gs.map Prod.fst := by
  induction gs with
  | nil => simp [lookupGroup]
  | cons e rest ih =>
    by_cases he : e.1 = g
    · subst he
      simp [lookupGroup]
    · simp only [lookupGroup, if_neg he, List.map_cons, List.mem_cons, ih]
      constructor
      · exact Or.inr
      · rintro (h | h)
        · exact absurd h.symm he
        · exact h

theorem hasGroup_eq_decide (gs : GroupMap) (g : String) :
    hasGroup gs g = decide (g ∈ gs.map Prod.fst) := by
  have h : (lookupGroup gs g).isSome = true ↔ g ∈ gs.map Prod.fst := lookupGroup_isSome_iff
  unfold hasGroup
  cases hb : (lookupGroup gs g).isSome
  · rw [hb] at h
    have : g ∉ gs.map Prod.fst := fun hm => Bool.noConfusion (h.2 hm)
    simp [this]
  · rw [hb] at h
    simp [h.1 rfl]

theorem hasGroup_congr_keys {gs₁ gs₂ : GroupMap}
    (h : gs₁.map Prod.fst = gs₂.map Prod.fst) (g : String) :
    hasGroup gs₁ g = hasGroup gs₂ g := by
  rw [hasGroup_eq_decide, hasGroup_eq_decide, h]

theorem keys_map_eq {f : String × List String → String × List String}
    (h : ∀ e, (f e).1 = e.1) (gs : GroupMap) :
    (gs.map f).map Prod.fst = gs.map Prod.fst := by
  rw [List.map_map]
  exact List.map_congr_left fun e _ => h e

theorem keysNodup_cons {e : String × List String} {gs : GroupMap} :
    KeysNodup (e :: gs) ↔ e.1 ∉ gs.map Prod.fst ∧ KeysNodup gs := by
  simp [KeysNodup]

theorem keys_removeFromOthers (gs : GroupMap) (g p : String) :
    (removeFromOthers gs g p).map Prod.fst = gs.map Prod.fst :=
  keys_map_eq (fun e => by by_cases h : e.1 = g <;> simp [h]) gs

theorem keys_appendToGroup (gs : GroupMap) (g p : String) :
    (appendToGroup gs g p).map Prod.fst = gs.map Prod.fst :=
  keys_map_eq (fun e => by by_cases h : e.1 = g <;> simp [h]) gs

theorem keys_addOne (gs : GroupMap) (g p : String) :
    (addOne gs g p).1.map Prod.fst = gs.map Prod.fst := by
  unfold addOne
  by_cases h : p ∈ (lookupGroup (removeFromOthers gs g p) g).getD []
  · rw [if_pos h]
    exact keys_removeFromOthers gs g p
  · rw [if_neg h]
    rw [keys_appendToGroup, keys_removeFromOthers]

theorem keys_addLoop (ps : List String) : ∀ gs g,
    (addLoop gs g ps).1.map Prod.fst = gs.map Prod.fst := by
  induction ps with
  | nil => intro gs g; rfl
  | cons p rest ih =>
    intro gs g
    unfold addLoop
    by_cases h : (addOne gs g p).2 = true
    · rw [if_pos h]
      rw [ih, keys_addOne]
    · rw [if_neg h]
      rw [ih, keys_addOne]

theorem removeFromOthers_cons (e : String × List String) (gs : GroupMap) (g p : String) :
    removeFromOthers (e :: gs) g p =
      (if e.1 = g then e else (e.1, eraseFirst e.2 p)) :: removeFromOthers gs g p := by
  unfold removeFromOthers
  rw [List.map_cons]

theorem appendToGroup_cons (e : String × List String) (gs : GroupMap) (g p : String) :
    appendToGroup (e :: gs) g p =
      (if e.1 = g then (e.1, e.2 ++ [p]) else e) :: appendToGroup gs g p := by
  unfold appendToGroup
  rw [List.map_cons]

theorem lookupGroup_cons (e : String × List String) (gs : GroupMap) (g : String) :
    lookupGroup (e :: gs) g = if e.1 = g then some e.2 else lookupGroup gs g := rfl

theorem lookupGroup_removeFromOthers (gs : GroupMap) (g p : String) :
    lookupGroup (removeFromOthers gs g p) g = lookupGroup gs g := by
  induction gs with
  | nil => rfl
  | cons e rest ih =>
    rw [removeFromOthers_cons, lookupGroup_cons, lookupGroup_cons]
    by_cases he : e.1 = g
    · rw [if_pos he, if_pos he, if_pos he]
    · rw [if_neg he, if_neg he, if_neg he]
      exact ih

theorem lookupGroup_appendToGroup (gs : GroupMap) (g p : String) :
    lookupGroup (appendToGroup gs g p) g = (lookupGroup gs g).map (fun l => l ++ [p]) := by
  induction gs with
  | nil => rfl
  | cons e rest ih =>
    rw [appendToGroup_cons, lookupGroup_cons, lookupGroup_cons]
    by_cases he : e.1 = g
    · rw [if_pos he, if_pos he, if_pos he]
      rfl
    · rw [if_neg he, if_neg he, if_neg he]
      exact ih

/-! ### Occurrence accounting for the add-path operation -/

theorem pathOccs_removeFromOthers_le (gs : GroupMap) (g p q : String) :
    pathOccs (removeFromOthers gs g p) q ≤ pathOccs gs q := by
  refine pathOccs_map_le fun e _ => ?_
  by_cases h : e.1 = g
  · rw [if_pos h]
  · rw [if_neg h]
    exact countOcc_eraseFirst_le e.2 p q

theorem pathOccs_eraseAll_zero {gs : GroupMap} {g p : String}
    (hkeys : ∀ e ∈ gs, e.1 ≠ g) (hle : ∀ e ∈ gs, countOcc e.2 p ≤ 1) :
    pathOccs (removeFromOthers gs g p) p = 0 := by
  induction gs with
  | nil => rfl
  | cons e rest ih =>
    have he := hkeys e (List.mem_cons_self _ _)
    rw [removeFromOthers_cons, if_neg he, pathOccs_cons]
    have h1 : countOcc (e.1, eraseFirst e.2 p).2 p = 0 := by
      show countOcc (eraseFirst e.2 p) p = 0
      rw [countOcc_eraseFirst_self]
      have := hle e (List.mem_cons_self _ _)
      omega
    have h2 := ih (fun e' he' => hkeys e' (List.mem_cons_of_mem _ he'))
      (fun e' he' => hle e' (List.mem_cons_of_mem _ he'))
    rw [h1, h2]

theorem pathOccs_removeFromOthers_self {gs : GroupMap} {g p : String}
    (hk : KeysNodup gs) (hU : GlobalUnique gs) :
    pathOccs (removeFromOthers gs g p) p = countOcc ((lookupGroup gs g).getD []) p := by
  induction gs with
  | nil => rfl
  | cons e rest ih =>
    rcases keysNodup_cons.1 hk with ⟨hknot, hkrest⟩
    have hUrest : GlobalUnique rest := by
      intro q
      have := hU q
      rw [pathOccs_cons] at this
      omega
    rw [removeFromOthers_cons, lookupGroup_cons, pathOccs_cons]
    by_cases he : e.1 = g
    · rw [if_pos he, if_pos he, Option.getD_some]
      have hz : pathOccs (removeFromOthers rest g p) p = 0 := by
        refine pathOccs_eraseAll_zero (fun e' he' hkey => ?_) (fun e' he' => ?_)
        · apply hknot
          rw [he, ← hkey]
          exact List.mem_map_of_mem Prod.fst he'
        · have h1 := @countOcc_le_pathOccs rest e' he' p
          have h2 := hU p
          rw [pathOccs_cons] at h2
          omega
      rw [hz, Nat.add_zero]
    · rw [if_neg he, if_neg he]
      have h1 : countOcc (e.1, eraseFirst e.2 p).2 p = 0 := by
        show countOcc (eraseFirst e.2 p) p = 0
        rw [countOcc_eraseFirst_self]
        have h2 := hU p
        rw [pathOccs_cons] at h2
        omega
      have h3 := ih hkrest hUrest
      rw [h1, h3, Nat.zero_add]

theorem appendToGroup_of_no_key {gs : GroupMap} {g : String}
    (h : ∀ e ∈ gs, e.1 ≠ g) (p : String) : appendToGroup gs g p = gs := by
  unfold appendToGroup
  rw [List.map_congr_left fun e he => by rw [if_neg (h e he)]]
  exact List.map_id _

theorem pathOccs_appendToGroup {gs : GroupMap} {g : String} (hk : KeysNodup gs)
    {L : List String} (hlk : lookupGroup gs g = some L) (p q : String) :
    pathOccs (appendToGroup gs g q) p = pathOccs gs p + (if q = p then 1 else 0) := by
  induction gs with
  | nil => exact Option.noConfusion hlk
  | cons e rest ih =>
    rcases keysNodup_cons.1 hk with ⟨hknot, hkrest⟩
    rw [appendToGroup_cons, pathOccs_cons, pathOccs_cons]
    by_cases he : e.1 = g
    · rw [if_pos he]
      have hrest : appendToGroup rest g q = rest := by
        refine appendToGroup_of_no_key (fun e' he' hkey => ?_) q
        apply hknot
        rw [he, ← hkey]
        exact List.mem_map_of_mem Prod.fst he'
      rw [hrest]
      show countOcc (e.2 ++ [q]) p + _ = _
      rw [countOcc_append, countOcc_cons, countOcc_nil]
      omega
    · rw [if_neg he]
      rw [lookupGroup_cons, if_neg he] at hlk
      have h3 := ih hkrest hlk
      rw [h3]
      omega

theorem hasGroup_addOne (gs : GroupMap) (g p g' : String) :
    hasGroup (addOne gs g p).1 g' = hasGroup gs g' :=
  hasGroup_congr_keys (keys_addOne gs g p) g'

theorem addOne_unique {gs : GroupMap} {g : String} (p : String) (hk : KeysNodup gs)
    (hU : GlobalUnique gs) (hg : hasGroup gs g = true) :
    GlobalUnique (addOne gs g p).1 := by
  intro q
  obtain ⟨L, hL⟩ := Option.isSome_iff_exists.1 hg
  have hL1 : lookupGroup (removeFromOthers gs g p) g = some L := by
    rw [lookupGroup_removeFromOthers]
    exact hL
  have hk1 : KeysNodup (removeFromOthers gs g p) := by
    unfold KeysNodup
    rw [keys_removeFromOthers]
    exact hk
  unfold addOne
  by_cases hmem : p ∈ (lookupGroup (removeFromOthers gs g p) g).getD []
  · rw [if_pos hmem]
    exact le_trans (pathOccs_removeFromOthers_le gs g p q) (hU q)
  · rw [if_neg hmem]
    show pathOccs (appendToGroup (removeFromOthers gs g p) g p) q ≤ 1
    rw [pathOccs_appendToGroup hk1 hL1]
    by_cases hpq : p = q
    · subst hpq
      rw [if_pos rfl]
      have h1 : pathOccs (removeFromOthers gs g p) p = countOcc ((lookupGroup gs g).getD []) p :=
        pathOccs_removeFromOthers_self hk hU
      rw [hL1, Option.getD_some] at hmem
      rw [hL, Option.getD_some] at h1
      have h2 : countOcc L p = 0 := countOcc_eq_zero.2 hmem
      omega
    · rw [if_neg hpq]
      have := le_trans (pathOccs_removeFromOthers_le gs g p q) (hU q)
      omega

theorem addOne_keysNodup {gs : GroupMap} (g p : String) (hk : KeysNodup gs) :
    KeysNodup (addOne gs g p).1 := by
  unfold KeysNodup
  rw [keys_addOne]
  exact hk

theorem addLoop_unique (ps : List String) : ∀ gs g, KeysNodup gs → GlobalUnique gs →
    hasGroup gs g = true → GlobalUnique (addLoop gs g ps).1 := by
  induction ps with
  | nil =>
    intro gs g _ hU _
    exact hU
  | cons p rest ih =>
    intro gs g hk hU hg
    unfold addLoop
    have h1 := addOne_unique p hk hU hg
    have h2 := addOne_keysNodup g p hk
    have h3 : hasGroup (addOne gs g p).1 g = true := by
      rw [hasGroup_addOne]
      exact hg
    by_cases h : (addOne gs g p).2 = true
    · rw [if_pos h]
      exact ih _ _ h2 h1 h3
    · rw [if_neg h]
      exact ih _ _ h2 h1 h3


/-! ### Preservation of the uniqueness invariant by every public operation -/

theorem countOcc_filter_le (l : List String) (f : String → Bool) (p : String) :
    countOcc (l.filter f) p ≤ countOcc l p := by
  induction l with
  | nil => simp
  | cons x rest ih =>
    rw [List.filter_cons]
    by_cases h : f x = true
    · rw [if_pos h, countOcc_cons, countOcc_cons]
      omega
    · rw [if_neg h, countOcc_cons]
      omega

theorem pathOccs_removeKey_le (gs : GroupMap) (g q : String) :
    pathOccs (removeKey gs g) q ≤ pathOccs gs q := by
  induction gs with
  | nil => simp [removeKey]
  | cons e rest ih =>
    rw [pathOccs_cons, removeKey]
    by_cases h : e.1 = g
    · rw [if_pos h]
      omega
    · rw [if_neg h, pathOccs_cons]
      omega

theorem unique_create {s : SysState} (n : String) (hU : GlobalUnique s.groups) :
    GlobalUnique (create_group s n).1.groups := by
  unfold create_group
  by_cases h : hasGroup s.groups n = true
  · rw [if_pos h]
    exact hU
  · rw [if_neg h]
    intro q
    show pathOccs (s.groups ++ [(n, [])]) q ≤ 1
    rw [pathOccs_append, pathOccs_cons_pair]
    have := hU q
    simp only [countOcc_nil, pathOccs_nil]
    omega

theorem unique_add {resolve : String → String} {s : SysState} {g : String}
    {ps : List String} {out : SysState × Nat × Nat} (hk : KeysNodup s.groups)
    (hU : GlobalUnique s.groups)
    (h : add_files_to_group resolve s g ps = Except.ok out) :
    GlobalUnique out.1.groups := by
  unfold add_files_to_group at h
  by_cases hg : hasGroup s.groups g = true
  · rw [if_pos hg] at h
    injection h with h'
    rw [← h']
    show GlobalUnique (addLoop s.groups g (ps.map resolve)).1
    exact addLoop_unique _ _ _ hk hU hg
  · rw [if_neg hg] at h
    exact Except.noConfusion h

theorem unique_list (ex : String → Bool) (clean : Bool) {s : SysState}
    (hU : GlobalUnique s.groups) : GlobalUnique (list_groups ex s clean).1.groups := by
  unfold list_groups
  by_cases hc : clean = true
  · rw [if_pos hc]
    intro q
    refine le_trans (pathOccs_map_le fun e _ => ?_) (hU q)
    by_cases hcond : clean ∧ (e.2.filter fun p => ex p || !clean).length ≠ e.2.length
    · rw [if_pos hcond]
      exact countOcc_filter_le e.2 _ q
    · rw [if_neg hcond]
  · rw [if_neg hc]
    exact hU

theorem unique_clean (ex : String → Bool) {s : SysState} (hU : GlobalUnique s.groups) :
    GlobalUnique (clean_groups ex s).1.groups := by
  unfold clean_groups
  by_cases hr : (s.groups.filterMap fun e =>
      if e.2.filter (fun p => !(ex p)) = [] then none
      else some (e.1, e.2.filter fun p => !(ex p))) = []
  · rw [if_pos hr]
    exact hU
  · rw [if_neg hr]
    intro q
    refine le_trans (pathOccs_map_le fun e _ => ?_) (hU q)
    by_cases hcond : e.2.filter (fun p => !(ex p)) = []
    · rw [if_pos hcond]
    · rw [if_neg hcond]
      exact countOcc_filter_le e.2 _ q

theorem unique_remove_group {s : SysState} (g : String) (hU : GlobalUnique s.groups) :
    GlobalUnique (remove_group s g).1.groups := by
  unfold remove_group
  by_cases h : hasGroup s.groups g = true
  · rw [if_pos h]
    intro q
    exact le_trans (pathOccs_removeKey_le s.groups g q) (hU q)
  · rw [if_neg h]
    exact hU

theorem unique_remove_file {resolve : String → String} {s : SysState} {g path : String}
    {out : SysState × Bool} (hU : GlobalUnique s.groups)
    (h : remove_file_from_group resolve s g path = Except.ok out) :
    GlobalUnique out.1.groups := by
  unfold remove_file_from_group at h
  by_cases hg : hasGroup s.groups g = true
  · rw [if_pos hg] at h
    by_cases hm : resolve path ∈ (lookupGroup s.groups g).getD []
    · rw [if_pos hm] at h
      injection h with h'
      rw [← h']
      intro q
      refine le_trans (pathOccs_map_le fun e _ => ?_) (hU q)
      by_cases hcond : e.1 = g
      · rw [if_pos hcond]
        exact countOcc_eraseFirst_le e.2 _ q
      · rw [if_neg hcond]
    · rw [if_neg hm] at h
      injection h with h'
      rw [← h']
      exact hU
  · rw [if_neg hg] at h
    exact Except.noConfusion h


/-! ### Claim theorems -/

/-- C1: for every store state satisfying global uniqueness (each resolved
path a member of at most one group, at most once within its group) and with
the dict's unique group names, every public operation — `create_group`,
`add_files_to_group`, `list_groups` (with `clean` true or false),
`clean_groups`, `remove_group`, `remove_file_from_group` — yields a state
that still satisfies global uniqueness. -/
theorem C1_all_ops_preserve_uniqueness (resolve : String → String) (ex : String → Bool)
    (s : SysState) (clean : Bool) (n g : String) (ps : List String) (path : String)
    (hk : KeysNodup s.groups) (hU : GlobalUnique s.groups) :
    GlobalUnique (create_group s n).1.groups ∧
    (∀ out, add_files_to_group resolve s g ps = Except.ok out → GlobalUnique out.1.groups) ∧
    GlobalUnique (list_groups ex s clean).1.groups ∧
    GlobalUnique (clean_groups ex s).1.groups ∧
    GlobalUnique (remove_group s g).1.groups ∧
    (∀ out, remove_file_from_group resolve s g path = Except.ok out →
      GlobalUnique out.1.groups) :=
  ⟨unique_create n hU,
   fun _ h => unique_add hk hU h,
   unique_list ex clean hU,
   unique_clean ex hU,
   unique_remove_group g hU,
   fun _ h => unique_remove_file hU h⟩

/-- Witness for C1 at a concrete two-group store. -/
theorem C1_all_ops_preserve_uniqueness_witness :
    KeysNodup (SysState.mk [("docs", ["/a"]), ("data", [])] none 0).groups ∧
    GlobalUnique (SysState.mk [("docs", ["/a"]), ("data", [])] none 0).groups ∧
    (GlobalUnique (create_group (SysState.mk [("docs", ["/a"]), ("data", [])] none 0) "x").1.groups ∧
     (∀ out, add_files_to_group id (SysState.mk [("docs", ["/a"]), ("data", [])] none 0) "data" ["/a"]
        = Except.ok out → GlobalUnique out.1.groups) ∧
     GlobalUnique (list_groups (fun _ => false)
        (SysState.mk [("docs", ["/a"]), ("data", [])] none 0) true).1.groups ∧
     GlobalUnique (clean_groups (fun _ => false)
        (SysState.mk [("docs", ["/a"]), ("data", [])] none 0)).1.groups ∧
     GlobalUnique (remove_group (SysState.mk [("docs", ["/a"]), ("data", [])] none 0) "data").1.groups ∧
     (∀ out, remove_file_from_group id (SysState.mk [("docs", ["/a"]), ("data", [])] none 0) "data" "/a"
        = Except.ok out → GlobalUnique out.1.groups)) :=
  have hk : KeysNodup (SysState.mk [("docs", ["/a"]), ("data", [])] none 0).groups := by
    unfold KeysNodup
    decide
  have hU : GlobalUnique (SysState.mk [("docs", ["/a"]), ("data", [])] none 0).groups := by
    intro p
    show countOcc ["/a"] p + (countOcc [] p + 0) ≤ 1
    by_cases h : "/a" = p
    · simp [countOcc, h]
    · simp [countOcc, h]
  ⟨hk, hU, C1_all_ops_preserve_uniqueness id (fun _ => false)
    (SysState.mk [("docs", ["/a"]), ("data", [])] none 0) true "x" "data" ["/a"] "/a" hk hU⟩


/-- C7: for every state and group name absent from the store,
`add_files_to_group` and `remove_file_from_group` fail with the
group-not-found error kind (distinct from the other error kinds), and no
mutated state is produced: the store and the storage file are as before. -/
theorem C7_absent_group_not_found (resolve : String → String) (s : SysState)
    (g : String) (ps : List String) (path : String)
    (h : hasGroup s.groups g = false) :
    add_files_to_group resolve s g ps = Except.error CoreError.groupNotFound ∧
    remove_file_from_group resolve s g path = Except.error CoreError.groupNotFound ∧
    CoreError.groupNotFound ≠ CoreError.storageCorrupt := by
  refine ⟨?_, ?_, fun hc => CoreError.noConfusion hc⟩
  · unfold add_files_to_group
    rw [if_neg fun hc => Bool.noConfusion (h ▸ hc)]
  · unfold remove_file_from_group
    rw [if_neg fun hc => Bool.noConfusion (h ▸ hc)]

/-- Witness for C7 on the empty store. -/
theorem C7_absent_group_not_found_witness :
    hasGroup (SysState.mk [] none 0).groups "docs" = false ∧
    (add_files_to_group id (SysState.mk [] none 0) "docs" ["/a"]
        = Except.error CoreError.groupNotFound ∧
     remove_file_from_group id (SysState.mk [] none 0) "docs" "/a"
        = Except.error CoreError.groupNotFound ∧
     CoreError.groupNotFound ≠ CoreError.storageCorrupt) :=
  ⟨rfl, C7_absent_group_not_found id (SysState.mk [] none 0) "docs" ["/a"] "/a" rfl⟩

/-- C8: a storage file whose content is not parseable JSON makes
construction of the manager fail with the storage-corrupt error kind; no
manager state (in particular no silently emptied store) is produced, and
nothing is written. -/
theorem C8_corrupt_storage_fails_load :
    mkManager (some FileContent.corrupt) = Except.error CoreError.storageCorrupt ∧
    ∀ s' : SysState, mkManager (some FileContent.corrupt) ≠ Except.ok s' :=
  ⟨rfl, fun _ h => Except.noConfusion h⟩

/-- C9: adding an empty path list to an existing group returns `(0, 0)`,
leaves the in-memory mapping unchanged, and leaves the persisted document's
content unchanged (the unconditional save rewrites the same bytes). -/
theorem C9_add_empty_noop (resolve : String → String) (s : SysState) (g : String)
    (hg : hasGroup s.groups g = true) (hsync : s.file = some (FileContent.valid s.groups)) :
    add_files_to_group resolve s g [] =
      Except.ok ({ groups := s.groups, file := s.file, saves := s.saves + 1 }, 0, 0) := by
  unfold add_files_to_group
  rw [if_pos hg, hsync]
  rfl

/-- Witness for C9 on a one-group store. -/
theorem C9_add_empty_noop_witness :
    hasGroup (SysState.mk [("g", [])] (some (FileContent.valid [("g", [])])) 0).groups "g" = true ∧
    (SysState.mk [("g", [])] (some (FileContent.valid [("g", [])])) 0).file
      = some (FileContent.valid
          (SysState.mk [("g", [])] (some (FileContent.valid [("g", [])])) 0).groups) ∧
    add_files_to_group id (SysState.mk [("g", [])] (some (FileContent.valid [("g", [])])) 0) "g" []
      = Except.ok (SysState.mk [("g", [])] (some (FileContent.valid [("g", [])])) 1, 0, 0) :=
  ⟨rfl, rfl,
   C9_add_empty_noop id (SysState.mk [("g", [])] (some (FileContent.valid [("g", [])])) 0) "g"
     rfl rfl⟩

/-- C10: `list_groups` with `clean` true always performs a save, even when
nothing was missing, while `clean_groups` saves exactly when at least one
path was removed. -/
theorem C10_save_discipline (ex : String → Bool) (s : SysState) :
    (list_groups ex s true).1.saves = s.saves + 1 ∧
    ((clean_groups ex s).1.saves = s.saves ↔ (clean_groups ex s).2 = []) ∧
    ((clean_groups ex s).2 ≠ [] → (clean_groups ex s).1.saves = s.saves + 1) := by
  refine ⟨rfl, ?_, ?_⟩
  · unfold clean_groups
    by_cases hr : (s.groups.filterMap fun e =>
        if e.2.filter (fun p => !(ex p)) = [] then none
        else some (e.1, e.2.filter fun p => !(ex p))) = []
    · rw [if_pos hr]
      exact ⟨fun _ => hr, fun _ => rfl⟩
    · rw [if_neg hr]
      constructor
      · intro h
        have h' : s.saves + 1 = s.saves := h
        exact absurd h' (Nat.succ_ne_self _)
      · intro h
        exact absurd h hr
  · intro h
    unfold clean_groups at h ⊢
    by_cases hr : (s.groups.filterMap fun e =>
        if e.2.filter (fun p => !(ex p)) = [] then none
        else some (e.1, e.2.filter fun p => !(ex p))) = []
    · rw [if_pos hr] at h
      exact absurd hr h
    · rw [if_neg hr]
      rfl


/-- C4: saving a globally unique mapping and constructing a new manager
from the resulting file yields an identical mapping — same group names and
same member paths in the same order (the load-time repair pass changes
nothing on a valid store). -/
theorem fix_duplicate_files_of_unique (t : SysState) (hU : GlobalUnique t.groups) :
    fix_duplicate_files t = t := by
  simp only [fix_duplicate_files]
  have h := fixGroups_nochange t.groups [] hU fun p hp => absurd hp (List.not_mem_nil p)
  rw [h.2, if_neg Bool.false_ne_true, h.1]

theorem C4_save_load_roundtrip (s : SysState) (hU : GlobalUnique s.groups) :
    mkManager (save_groups s).file =
      Except.ok { groups := s.groups, file := some (FileContent.valid s.groups), saves := 0 } := by
  show Except.ok
      (fix_duplicate_files
        (SysState.mk s.groups (some (FileContent.valid s.groups)) 0)) = _
  rw [fix_duplicate_files_of_unique (SysState.mk s.groups (some (FileContent.valid s.groups)) 0) hU]

/-- Witness for C4 on a concrete two-group store. -/
theorem C4_save_load_roundtrip_witness :
    GlobalUnique (SysState.mk [("docs", ["/a"]), ("data", ["/b"])] none 5).groups ∧
    mkManager (save_groups (SysState.mk [("docs", ["/a"]), ("data", ["/b"])] none 5)).file =
      Except.ok (SysState.mk [("docs", ["/a"]), ("data", ["/b"])]
        (some (FileContent.valid [("docs", ["/a"]), ("data", ["/b"])])) 0) :=
  have hU : GlobalUnique (SysState.mk [("docs", ["/a"]), ("data", ["/b"])] none 5).groups := by
    intro p
    show countOcc ["/a"] p + (countOcc ["/b"] p + 0) ≤ 1
    by_cases h1 : "/a" = p
    · have h2 : "/b" ≠ p := fun h2 => absurd (h1.trans h2.symm) (by decide)
      simp [countOcc, h1, h2]
    · by_cases h2 : "/b" = p
      · simp [countOcc, h1, h2]
      · simp [countOcc, h1, h2]
  ⟨hU, C4_save_load_roundtrip (SysState.mk [("docs", ["/a"]), ("data", ["/b"])] none 5) hU⟩

/-! ### Helper lemmas for the cleaning operations -/

theorem filter_eq_self_of_no_missing {ex : String → Bool} {l : List String}
    (h : l.filter (fun p => !(ex p)) = []) : l.filter ex = l := by
  induction l with
  | nil => rfl
  | cons x rest ih =>
    rw [List.filter_cons] at h ⊢
    by_cases hx : ex x = true
    · rw [if_pos hx]
      rw [if_neg (by rw [hx]; exact Bool.noConfusion)] at h
      rw [ih h]
    · rw [if_pos (by rw [Bool.not_eq_true] at hx; rw [hx]; rfl)] at h
      exact absurd h (List.cons_ne_nil _ _)

theorem filter_filter_missing (ex : String → Bool) (l : List String) :
    (l.filter ex).filter (fun p => !(ex p)) = [] := by
  induction l with
  | nil => rfl
  | cons x rest ih =>
    rw [List.filter_cons]
    by_cases hx : ex x = true
    · rw [if_pos hx, List.filter_cons, if_neg (by rw [hx]; exact Bool.noConfusion)]
      exact ih
    · rw [if_neg hx]
      exact ih

theorem filter_eq_self_of_length {f : String → Bool} {l : List String}
    (h : (l.filter f).length = l.length) : l.filter f = l := by
  induction l with
  | nil => rfl
  | cons x rest ih =>
    rw [List.filter_cons] at h ⊢
    by_cases hx : f x = true
    · rw [if_pos hx] at h ⊢
      rw [List.length_cons] at h
      rw [ih (Nat.succ_injective h)]
    · rw [if_neg hx] at h
      have := List.length_filter_le f rest
      rw [List.length_cons] at h
      omega

theorem clean_groups_groups (ex : String → Bool) (s : SysState) :
    (clean_groups ex s).1.groups = s.groups.map fun e => (e.1, e.2.filter ex) := by
  unfold clean_groups
  by_cases hr : (s.groups.filterMap fun e =>
      if e.2.filter (fun p => !(ex p)) = [] then none
      else some (e.1, e.2.filter fun p => !(ex p))) = []
  · rw [if_pos hr]
    show s.groups = _
    rw [List.filterMap_eq_nil_iff] at hr
    refine (Eq.trans (List.map_congr_left fun e he => ?_) (List.map_id _)).symm
    have h1 := hr e he
    by_cases h2 : e.2.filter (fun p => !(ex p)) = []
    · show ((e.1, e.2.filter ex) : String × List String) = e
      rw [filter_eq_self_of_no_missing h2]
    · rw [if_neg h2] at h1
      exact Option.noConfusion h1
  · rw [if_neg hr]
    show s.groups.map _ = _
    refine List.map_congr_left fun e he => ?_
    by_cases h2 : e.2.filter (fun p => !(ex p)) = []
    · rw [if_pos h2, filter_eq_self_of_no_missing h2]
    · rw [if_neg h2]

theorem clean_groups_removed (ex : String → Bool) (s : SysState) :
    (clean_groups ex s).2 =
      (s.groups.map fun e => (e.1, e.2.filter fun p => !(ex p))).filter
        fun e => !(e.2 == []) := by
  have key : ∀ gs : GroupMap, (gs.filterMap fun e =>
      if e.2.filter (fun p => !(ex p)) = [] then none
      else some (e.1, e.2.filter fun p => !(ex p))) =
        (gs.map fun e => (e.1, e.2.filter fun p => !(ex p))).filter
          fun e => !(e.2 == []) := by
    intro gs
    induction gs with
    | nil => rfl
    | cons e rest ih =>
      rw [List.filterMap_cons, List.map_cons, List.filter_cons]
      by_cases h : e.2.filter (fun p => !(ex p)) = []
      · rw [if_pos h]
        have hb : (!((e.1, e.2.filter fun p => !(ex p)).2 == [])) = false := by
          simp [h]
        rw [hb, ih]
        rfl
      · rw [if_neg h]
        have hb : (!((e.1, e.2.filter fun p => !(ex p)).2 == [])) = true := by
          simp [h]
        rw [hb, ih]
        rfl
  unfold clean_groups
  by_cases hr : (s.groups.filterMap fun e =>
      if e.2.filter (fun p => !(ex p)) = [] then none
      else some (e.1, e.2.filter fun p => !(ex p))) = []
  · rw [if_pos hr]
    exact (key s.groups)
  · rw [if_neg hr]
    exact (key s.groups)

theorem clean_groups_removed_def (ex : String → Bool) (s : SysState) :
    (clean_groups ex s).2 = s.groups.filterMap fun e =>
      if e.2.filter (fun p => !(ex p)) = [] then none
      else some (e.1, e.2.filter fun p => !(ex p)) := by
  unfold clean_groups
  by_cases hr : (s.groups.filterMap fun e =>
      if e.2.filter (fun p => !(ex p)) = [] then none
      else some (e.1, e.2.filter fun p => !(ex p))) = []
  · rw [if_pos hr]
  · rw [if_neg hr]

theorem clean_groups_state (ex : String → Bool) (s : SysState) :
    (clean_groups ex s).1 =
      if (clean_groups ex s).2 = [] then s
      else save_groups { s with groups := s.groups.map fun e => (e.1, e.2.filter ex) } := by
  rw [clean_groups_removed_def]
  by_cases hr : (s.groups.filterMap fun e =>
      if e.2.filter (fun p => !(ex p)) = [] then none
      else some (e.1, e.2.filter fun p => !(ex p))) = []
  · rw [if_pos hr]
    unfold clean_groups
    rw [if_pos hr]
  · rw [if_neg hr]
    unfold clean_groups
    rw [if_neg hr]
    show save_groups _ = save_groups _
    have hAB : (s.groups.map fun e =>
        if e.2.filter (fun p => !(ex p)) = [] then e
        else (e.1, e.2.filter fun p => ex p)) =
          s.groups.map fun e => (e.1, e.2.filter ex) := by
      refine List.map_congr_left fun e he => ?_
      by_cases h2 : e.2.filter (fun p => !(ex p)) = []
      · rw [if_pos h2]
        show e = ((e.1, e.2.filter ex) : String × List String)
        rw [filter_eq_self_of_no_missing h2]
      · rw [if_neg h2]
    rw [hAB]

theorem clean_groups_of_clean {ex : String → Bool} {t : SysState}
    (h : ∀ e ∈ t.groups, e.2.filter (fun p => !(ex p)) = []) :
    clean_groups ex t = (t, []) := by
  have hr : (t.groups.filterMap fun e =>
      if e.2.filter (fun p => !(ex p)) = [] then none
      else some (e.1, e.2.filter fun p => !(ex p))) = [] := by
    rw [List.filterMap_eq_nil_iff]
    intro e he
    rw [if_pos (h e he)]
  unfold clean_groups
  rw [if_pos hr, hr]

theorem clean_groups_idem (ex : String → Bool) (s : SysState) :
    clean_groups ex (clean_groups ex s).1 = ((clean_groups ex s).1, []) := by
  refine clean_groups_of_clean fun e he => ?_
  rw [clean_groups_groups ex s] at he
  rcases List.mem_map.1 he with ⟨e', _, he'⟩
  rw [← he']
  exact filter_filter_missing ex e'.2

/-- C5: `clean_groups` keeps exactly the members that exist (in order),
returns per group the removed missing paths omitting groups with none,
leaves the state (store, file, save counter) untouched exactly when nothing
was missing and otherwise saves once, and an immediately repeated call
returns the empty mapping. -/
theorem C5_clean_groups_behavior (ex : String → Bool) (s : SysState) :
    (clean_groups ex s).1.groups = (s.groups.map fun e => (e.1, e.2.filter ex)) ∧
    (clean_groups ex s).2 =
      ((s.groups.map fun e => (e.1, e.2.filter fun p => !(ex p))).filter
        fun e => !(e.2 == [])) ∧
    (clean_groups ex s).1 =
      (if (clean_groups ex s).2 = [] then s
       else save_groups { s with groups := s.groups.map fun e => (e.1, e.2.filter ex) }) ∧
    clean_groups ex (clean_groups ex s).1 = ((clean_groups ex s).1, []) :=
  ⟨clean_groups_groups ex s, clean_groups_removed ex s, clean_groups_state ex s,
   clean_groups_idem ex s⟩

/-- C6: `list_groups` pairs every current member, in order, with
`is_missing = !exists`; with `clean` true it removes exactly the missing
members from each group; with `clean` false the state (store and file) is
returned unchanged. -/
theorem C6_list_groups_behavior (ex : String → Bool) (s : SysState) :
    (∀ clean, (list_groups ex s clean).2 =
      s.groups.map fun e => (e.1, e.2.map fun p => (p, !(ex p)))) ∧
    (list_groups ex s true).1.groups = (s.groups.map fun e => (e.1, e.2.filter ex)) ∧
    (list_groups ex s false).1 = s := by
  refine ⟨fun clean => ?_, ?_, rfl⟩
  · unfold list_groups
    by_cases hc : clean = true
    · rw [if_pos hc]
    · rw [if_neg hc]
  · unfold list_groups
    rw [if_pos rfl]
    show s.groups.map _ = _
    refine List.map_congr_left fun e he => ?_
    have hpred : (e.2.filter fun p => ex p || !true) = e.2.filter ex := by
      refine congrArg (fun f => List.filter f e.2) ?_
      funext p
      rw [Bool.not_true, Bool.or_false]
    rw [hpred]
    by_cases hlen : (e.2.filter ex).length ≠ e.2.length
    · rw [if_pos ⟨rfl, hlen⟩]
    · rw [if_neg fun hc => hlen hc.2]
      rw [Ne, not_not] at hlen
      rw [filter_eq_self_of_length hlen]


/-- C3 counterexample: on the mapping `{"g": ["a","b","a"]}` the code's
repair pass keeps the *last* occurrence of the duplicated path (result
`["b","a"]`), while the claim's "remove it from every later occurrence"
(keep the first, as `specFixGroups` does) would give `["a","b"]`. -/
theorem C3_counterexample :
    (fixGroups [("g", ["a", "b", "a"])] []).1 = [("g", ["b", "a"])] ∧
    specFixGroups [("g", ["a", "b", "a"])] [] = [("g", ["a", "b"])] ∧
    (fixGroups [("g", ["a", "b", "a"])] []).1 ≠ specFixGroups [("g", ["a", "b", "a"])] [] := by
  refine ⟨by decide, by decide, by decide⟩

/-- C3 (amended): the repair pass leaves each path a member of exactly the
first group, in mapping-iteration order, that contained it — though when a
path occurs several times inside one group the surviving copy sits at the
position of the *last* occurrence, not the first; the repaired mapping is
globally unique; it is persisted immediately if and only if at least one
removal occurred (equivalently, iff the pass changed the mapping); and the
pass is idempotent. -/
theorem C3_repair_pass_amended (m : GroupMap) (f₀ : Option FileContent) (k : Nat) :
    ((fixGroups m []).1.map Prod.fst = m.map Prod.fst) ∧
    (∀ p i, i < m.length →
      (p ∈ ((fixGroups m []).1.getD i ("", [])).2 ↔
        p ∈ (m.getD i ("", [])).2 ∧ ∀ j, j < i → p ∉ (m.getD j ("", [])).2)) ∧
    GlobalUnique (fixGroups m []).1 ∧
    (fixGroups (fixGroups m []).1 []).1 = (fixGroups m []).1 ∧
    (fixGroups (fixGroups m []).1 []).2.2 = false ∧
    (fix_duplicate_files (SysState.mk m f₀ k) =
      if (fixGroups m []).1 = m then SysState.mk m f₀ k
      else SysState.mk (fixGroups m []).1
        (some (FileContent.valid (fixGroups m []).1)) (k + 1)) := by
  have hUfix : GlobalUnique (fixGroups m []).1 := fun p => (fixGroups_unique m [] p).1
  have hidem := fixGroups_nochange (fixGroups m []).1 [] hUfix
    fun p hp => absurd hp (List.not_mem_nil p)
  refine ⟨fixGroups_keys m [], ?_, hUfix, hidem.1, hidem.2, ?_⟩
  · intro p i hi
    rw [fixGroups_mem m [] p i hi]
    constructor
    · rintro ⟨_, h2, h3⟩
      exact ⟨h2, h3⟩
    · rintro ⟨h2, h3⟩
      exact ⟨List.not_mem_nil p, h2, h3⟩
  · simp only [fix_duplicate_files]
    by_cases hflag : (fixGroups m []).2.2 = true
    · rw [hflag, if_pos rfl, if_neg (fixGroups_flag_true m [] hflag)]
      rfl
    · have hf : (fixGroups m []).2.2 = false := by
        revert hflag
        cases (fixGroups m []).2.2 <;> simp
      have heq := fixGroups_flag_false m [] hf
      rw [hf, if_neg Bool.false_ne_true, if_pos heq, heq]


/-! ### Steal semantics: after an add, the path lives only in the target -/

theorem mem_addOne_other {gs : GroupMap} {g q : String} {e : String × List String}
    (he : e ∈ (addOne gs g q).1) (hne : e.1 ≠ g) :
    ∃ e' ∈ gs, e'.1 = e.1 ∧ e.2 = eraseFirst e'.2 q := by
  unfold addOne at he
  by_cases hm : q ∈ (lookupGroup (removeFromOthers gs g q) g).getD []
  · rw [if_pos hm] at he
    rcases List.mem_map.1 he with ⟨e', he', heq⟩
    by_cases hk : e'.1 = g
    · rw [if_pos hk] at heq
      rw [← heq] at hne
      exact absurd hk hne
    · rw [if_neg hk] at heq
      exact ⟨e', he', by rw [← heq], by rw [← heq]⟩
  · rw [if_neg hm] at he
    unfold appendToGroup at he
    rcases List.mem_map.1 he with ⟨e'', he'', heq⟩
    by_cases hk : e''.1 = g
    · rw [if_pos hk] at heq
      rw [← heq] at hne
      exact absurd hk hne
    · rw [if_neg hk] at heq
      rw [← heq]
      rcases List.mem_map.1 he'' with ⟨e', he', heq'⟩
      by_cases hk' : e'.1 = g
      · rw [if_pos hk'] at heq'
        rw [← heq'] at hk
        exact absurd hk' hk
      · rw [if_neg hk'] at heq'
        exact ⟨e', he', by rw [← heq'], by rw [← heq']⟩

theorem addOne_establishes {gs : GroupMap} {g p : String} (hU : GlobalUnique gs)
    (hg : hasGroup gs g = true) : OnlyIn (addOne gs g p).1 g p := by
  constructor
  · unfold addOne
    by_cases hm : p ∈ (lookupGroup (removeFromOthers gs g p) g).getD []
    · rw [if_pos hm]
      exact hm
    · rw [if_neg hm]
      show p ∈ (lookupGroup (appendToGroup (removeFromOthers gs g p) g p) g).getD []
      rw [lookupGroup_appendToGroup, lookupGroup_removeFromOthers]
      obtain ⟨L, hL⟩ := Option.isSome_iff_exists.1 hg
      rw [hL]
      show p ∈ L ++ [p]
      exact List.mem_append.2 (Or.inr (List.mem_singleton.2 rfl))
  · intro e he hne
    rcases mem_addOne_other he hne with ⟨e', he', _, hval⟩
    rw [hval]
    refine not_mem_eraseFirst_self ?_
    exact le_trans (countOcc_le_pathOccs he' p) (hU p)

theorem addOne_preserves_OnlyIn {gs : GroupMap} {g p : String} (q : String)
    (h : OnlyIn gs g p) : OnlyIn (addOne gs g q).1 g p := by
  obtain ⟨h1, h2⟩ := h
  constructor
  · unfold addOne
    by_cases hm : q ∈ (lookupGroup (removeFromOthers gs g q) g).getD []
    · rw [if_pos hm]
      show p ∈ (lookupGroup (removeFromOthers gs g q) g).getD []
      rw [lookupGroup_removeFromOthers]
      exact h1
    · rw [if_neg hm]
      show p ∈ (lookupGroup (appendToGroup (removeFromOthers gs g q) g q) g).getD []
      rw [lookupGroup_appendToGroup, lookupGroup_removeFromOthers]
      cases hL : lookupGroup gs g with
      | none =>
        rw [hL] at h1
        exact absurd h1 (List.not_mem_nil p)
      | some L =>
        rw [hL] at h1
        show p ∈ L ++ [q]
        exact List.mem_append.2 (Or.inl h1)
  · intro e he hne
    rcases mem_addOne_other he hne with ⟨e', he', hfst, hval⟩
    rw [hval]
    intro hmem
    exact (h2 e' he' (hfst.symm ▸ hne)) (mem_of_mem_eraseFirst hmem)

theorem addLoop_fst_eq (gs : GroupMap) (g q : String) (rest : List String) :
    (addLoop gs g (q :: rest)).1 = (addLoop (addOne gs g q).1 g rest).1 := by
  simp only [addLoop]
  by_cases h : (addOne gs g q).2 = true
  · rw [if_pos h]
  · rw [if_neg h]

theorem addLoop_preserves_OnlyIn (ps : List String) : ∀ gs g p, OnlyIn gs g p →
    OnlyIn (addLoop gs g ps).1 g p := by
  induction ps with
  | nil => intro gs g p h; exact h
  | cons q rest ih =>
    intro gs g p h
    rw [addLoop_fst_eq]
    exact ih _ _ _ (addOne_preserves_OnlyIn q h)

theorem addLoop_establishes (ps : List String) : ∀ gs g p, KeysNodup gs →
    GlobalUnique gs → hasGroup gs g = true → p ∈ ps →
    OnlyIn (addLoop gs g ps).1 g p := by
  induction ps with
  | nil =>
    intro gs g p _ _ _ hp
    exact absurd hp (List.not_mem_nil p)
  | cons q rest ih =>
    intro gs g p hk hU hg hp
    rw [addLoop_fst_eq]
    rcases List.mem_cons.1 hp with rfl | hp'
    · exact addLoop_preserves_OnlyIn rest _ _ _ (addOne_establishes hU hg)
    · refine ih _ _ _ (addOne_keysNodup g q hk) (addOne_unique q hk hU hg) ?_ hp'
      rw [hasGroup_addOne]
      exact hg

theorem add_files_groups_eq {resolve : String → String} {s : SysState} {g : String}
    {ps : List String} {out : SysState × Nat × Nat}
    (h : add_files_to_group resolve s g ps = Except.ok out) :
    out.1.groups = (addLoop s.groups g (ps.map resolve)).1 := by
  unfold add_files_to_group at h
  by_cases hg : hasGroup s.groups g = true
  · rw [if_pos hg] at h
    injection h with h'
    rw [← h']
    rfl
  · rw [if_neg hg] at h
    exact Except.noConfusion h

theorem add_files_OnlyIn {resolve : String → String} {s : SysState} {g : String}
    {ps : List String} {out : SysState × Nat × Nat} {p : String}
    (hk : KeysNodup s.groups) (hU : GlobalUnique s.groups)
    (h : add_files_to_group resolve s g ps = Except.ok out)
    (hp : p ∈ ps.map resolve) : OnlyIn out.1.groups g p := by
  have hgroups := add_files_groups_eq h
  by_cases hg : hasGroup s.groups g = true
  · rw [hgroups]
    exact addLoop_establishes _ _ _ _ hk hU hg hp
  · unfold add_files_to_group at h
    rw [if_neg hg] at h
    exact absurd h (fun hc => Except.noConfusion hc)

theorem runAdds_cons_ok {resolve : String → String} {s : SysState}
    {c : String × List String} {rest : List (String × List String)}
    {out : SysState × Nat × Nat}
    (h : add_files_to_group resolve s c.1 c.2 = Except.ok out) :
    runAdds resolve s (c :: rest) = runAdds resolve out.1 rest := by
  show (match add_files_to_group resolve s c.1 c.2 with
    | Except.ok r => runAdds resolve r.1 rest
    | Except.error _ => runAdds resolve s rest) = runAdds resolve out.1 rest
  rw [h]

theorem runAdds_cons_err {resolve : String → String} {s : SysState}
    {c : String × List String} {rest : List (String × List String)}
    {e : CoreError} (h : add_files_to_group resolve s c.1 c.2 = Except.error e) :
    runAdds resolve s (c :: rest) = runAdds resolve s rest := by
  show (match add_files_to_group resolve s c.1 c.2 with
    | Except.ok r => runAdds resolve r.1 rest
    | Except.error _ => runAdds resolve s rest) = runAdds resolve s rest
  rw [h]

theorem add_files_keys {resolve : String → String} {s : SysState} {g : String}
    {ps : List String} {out : SysState × Nat × Nat}
    (h : add_files_to_group resolve s g ps = Except.ok out) :
    out.1.groups.map Prod.fst = s.groups.map Prod.fst := by
  rw [add_files_groups_eq h, keys_addLoop]

theorem runAdds_wf (resolve : String → String)
    (calls : List (String × List String)) : ∀ s : SysState, KeysNodup s.groups →
    GlobalUnique s.groups →
    KeysNodup (runAdds resolve s calls).groups ∧
      GlobalUnique (runAdds resolve s calls).groups := by
  induction calls with
  | nil => intro s hk hU; exact ⟨hk, hU⟩
  | cons c rest ih =>
    intro s hk hU
    cases hadd : add_files_to_group resolve s c.1 c.2 with
    | ok out =>
      rw [runAdds_cons_ok hadd]
      refine ih out.1 ?_ (unique_add hk hU hadd)
      unfold KeysNodup
      rw [add_files_keys hadd]
      exact hk
    | error e =>
      rw [runAdds_cons_err hadd]
      exact ih s hk hU

theorem runAdds_append (resolve : String → String)
    (l₁ l₂ : List (String × List String)) : ∀ s : SysState,
    runAdds resolve s (l₁ ++ l₂) = runAdds resolve (runAdds resolve s l₁) l₂ := by
  induction l₁ with
  | nil => intro s; rfl
  | cons c rest ih =>
    intro s
    rw [List.cons_append]
    cases hadd : add_files_to_group resolve s c.1 c.2 with
    | ok out =>
      rw [runAdds_cons_ok hadd, runAdds_cons_ok hadd, ih]
    | error e =>
      rw [runAdds_cons_err hadd, runAdds_cons_err hadd, ih]

/-- C2: in a sequence of `add_files_to_group` calls, after the final call —
made on an existing group `g` with a path list resolving to contain `p` —
the path `p` is a member of exactly that last group: it is in `g`'s member
list and in no other group (adding silently steals membership). -/
theorem C2_last_add_wins (resolve : String → String) (s₀ : SysState)
    (init : List (String × List String)) (g : String) (ps : List String) (p : String)
    (hk : KeysNodup s₀.groups) (hU : GlobalUnique s₀.groups)
    (hg : hasGroup (runAdds resolve s₀ init).groups g = true)
    (hp : p ∈ ps.map resolve) :
    p ∈ (lookupGroup (runAdds resolve s₀ (init ++ [(g, ps)])).groups g).getD [] ∧
    ∀ e ∈ (runAdds resolve s₀ (init ++ [(g, ps)])).groups, e.1 ≠ g → p ∉ e.2 := by
  rw [runAdds_append]
  obtain ⟨hk₁, hU₁⟩ := runAdds_wf resolve init s₀ hk hU
  have hok : add_files_to_group resolve (runAdds resolve s₀ init) g ps =
      Except.ok (save_groups { runAdds resolve s₀ init with
          groups := (addLoop (runAdds resolve s₀ init).groups g (ps.map resolve)).1 },
        (addLoop (runAdds resolve s₀ init).groups g (ps.map resolve)).2.1,
        (addLoop (runAdds resolve s₀ init).groups g (ps.map resolve)).2.2) := by
    unfold add_files_to_group
    rw [if_pos hg]
  have hrun : runAdds resolve (runAdds resolve s₀ init) [(g, ps)] =
      (save_groups { runAdds resolve s₀ init with
          groups := (addLoop (runAdds resolve s₀ init).groups g (ps.map resolve)).1 }) := by
    rw [runAdds_cons_ok hok]
    rfl
  rw [hrun]
  exact add_files_OnlyIn hk₁ hU₁ hok hp


/-- Witness for C2: add `/f` to `"x"`, then to `"y"`; afterwards `/f` is
only in `"y"`. -/
theorem C2_last_add_wins_witness :
    KeysNodup (SysState.mk [("x", []), ("y", [])] none 0).groups ∧
    GlobalUnique (SysState.mk [("x", []), ("y", [])] none 0).groups ∧
    hasGroup (runAdds id (SysState.mk [("x", []), ("y", [])] none 0)
      [("x", ["/f"])]).groups "y" = true ∧
    "/f" ∈ (["/f"].map id) ∧
    ("/f" ∈ (lookupGroup (runAdds id (SysState.mk [("x", []), ("y", [])] none 0)
        ([("x", ["/f"])] ++ [("y", ["/f"])])).groups "y").getD [] ∧
     ∀ e ∈ (runAdds id (SysState.mk [("x", []), ("y", [])] none 0)
        ([("x", ["/f"])] ++ [("y", ["/f"])])).groups, e.1 ≠ "y" → "/f" ∉ e.2) :=
  have hk : KeysNodup (SysState.mk [("x", []), ("y", [])] none 0).groups := by
    unfold KeysNodup
    decide
  have hU : GlobalUnique (SysState.mk [("x", []), ("y", [])] none 0).groups := by
    intro p
    show countOcc [] p + (countOcc [] p + 0) ≤ 1
    simp [countOcc]
  have hg : hasGroup (runAdds id (SysState.mk [("x", []), ("y", [])] none 0)
      [("x", ["/f"])]).groups "y" = true := by decide
  have hp : "/f" ∈ (["/f"].map id) := by decide
  ⟨hk, hU, hg, hp,
   C2_last_add_wins id (SysState.mk [("x", []), ("y", [])] none 0)
     [("x", ["/f"])] "y" ["/f"] "/f" hk hU hg hp⟩


end Groupie
